import Mathlib

set_option maxRecDepth 4000

/-!
Shallow embedding of `flower_production_facility.py`.

Strings are modelled as `List Char`; Python integers as `Int`; the
insertion-order-preserving Python dictionaries (`dict`, `defaultdict(int)`,
`collections.Counter`) as association lists `List (Char × _)` in insertion
order, updated with `dictInsert` below.
-/

/-- Python `int(s)` on a decimal digit string: its decimal value. -/
def numVal (s : List Char) : Nat :=
  s.foldl (fun a c => a * 10 + (c.toNat - 48)) 0

/-- Fuel-driven worker for `digitRuns`; the fuel is an upper bound on the
remaining string length, so its zero case is never reached from `digitRuns`. -/
def digitRunsAux : Nat → List Char → List (List Char)
  | 0, _ => []
  | _ + 1, [] => []
  | fuel + 1, c :: rest =>
    if c.isDigit then
      (c :: rest.takeWhile Char.isDigit) :: digitRunsAux fuel (rest.dropWhile Char.isDigit)
    else
      digitRunsAux fuel rest

/-- `re.findall(r'\d+', s)`: the maximal runs of decimal digits of `s`, in order. -/
def digitRuns (s : List Char) : List (List Char) :=
  digitRunsAux s.length s

lemma digitRunsAux_congr : ∀ (f1 f2 : Nat) (s : List Char), s.length ≤ f1 →
    s.length ≤ f2 → digitRunsAux f1 s = digitRunsAux f2 s := by
  intro f1
  induction f1 with
  | zero =>
    intro f2 s h1 h2
    have hs : s = [] := List.eq_nil_of_length_eq_zero (by omega)
    subst hs
    cases f2 <;> rfl
  | succ n ih =>
    intro f2 s h1 h2
    cases s with
    | nil => cases f2 <;> rfl
    | cons c rest =>
      cases f2 with
      | zero => simp at h2
      | succ m =>
        simp only [List.length_cons] at h1 h2
        have hdw := (List.dropWhile_sublist (l := rest) Char.isDigit).length_le
        simp only [digitRunsAux]
        by_cases hc : c.isDigit
        · simp only [hc, if_pos]
          rw [ih m (rest.dropWhile Char.isDigit) (by omega) (by omega)]
        · simp only [hc, Bool.false_eq_true, if_false]
          rw [ih m rest (by omega) (by omega)]

lemma digitRuns_nil : digitRuns [] = [] := rfl

lemma digitRuns_cons (c : Char) (rest : List Char) :
    digitRuns (c :: rest) =
      if c.isDigit then
        (c :: rest.takeWhile Char.isDigit) :: digitRuns (rest.dropWhile Char.isDigit)
      else
        digitRuns rest := by
  unfold digitRuns
  simp only [List.length_cons, digitRunsAux]
  have hdw := (List.dropWhile_sublist (l := rest) Char.isDigit).length_le
  by_cases hc : c.isDigit
  · simp only [hc, if_pos]
    rw [digitRunsAux_congr rest.length (rest.dropWhile Char.isDigit).length
      (rest.dropWhile Char.isDigit) (by omega) (by omega)]
  · simp only [hc, Bool.false_eq_true, if_false]

/-- Fuel-driven worker for `removeOccs`; the fuel bounds the remaining
string length, so its zero case is never reached from `removeOccs`. -/
def removeOccsAux (pat : List Char) : Nat → List Char → List Char
  | 0, s => s
  | _ + 1, [] => []
  | fuel + 1, c :: rest =>
    if pat ≠ [] ∧ pat.isPrefixOf (c :: rest) then
      removeOccsAux pat fuel (rest.drop (pat.length - 1))
    else
      c :: removeOccsAux pat fuel rest

/-- Python `s.replace(pat, '')`: delete every left-to-right non-overlapping
occurrence of `pat` in `s` (for empty `pat` both sides are the identity here). -/
def removeOccs (pat s : List Char) : List Char :=
  removeOccsAux pat s.length s

lemma removeOccsAux_congr (pat : List Char) : ∀ (f1 f2 : Nat) (s : List Char),
    s.length ≤ f1 → s.length ≤ f2 → removeOccsAux pat f1 s = removeOccsAux pat f2 s := by
  intro f1
  induction f1 with
  | zero =>
    intro f2 s h1 h2
    have hs : s = [] := List.eq_nil_of_length_eq_zero (by omega)
    subst hs
    cases f2 <;> rfl
  | succ n ih =>
    intro f2 s h1 h2
    cases s with
    | nil => cases f2 <;> rfl
    | cons c rest =>
      cases f2 with
      | zero => simp at h2
      | succ m =>
        simp only [List.length_cons] at h1 h2
        have hdr := List.length_drop (pat.length - 1) rest
        simp only [removeOccsAux]
        by_cases hp : pat ≠ [] ∧ pat.isPrefixOf (c :: rest)
        · rw [if_pos hp, if_pos hp, ih m (rest.drop (pat.length - 1)) (by omega) (by omega)]
        · rw [if_neg hp, if_neg hp, ih m rest (by omega) (by omega)]

lemma removeOccs_nil (pat : List Char) : removeOccs pat [] = [] := rfl

lemma removeOccs_cons (pat : List Char) (c : Char) (rest : List Char) :
    removeOccs pat (c :: rest) =
      if pat ≠ [] ∧ pat.isPrefixOf (c :: rest) then
        removeOccs pat (rest.drop (pat.length - 1))
      else
        c :: removeOccs pat rest := by
  unfold removeOccs
  simp only [List.length_cons, removeOccsAux]
  have hdr := List.length_drop (pat.length - 1) rest
  by_cases hp : pat ≠ [] ∧ pat.isPrefixOf (c :: rest)
  · simp only [hp, if_pos]
    rw [removeOccsAux_congr pat rest.length (rest.drop (pat.length - 1)).length
      (rest.drop (pat.length - 1)) (by omega) (by omega)]
  · simp only [hp, if_false]

/-- Python dict assignment `m[k] = v`: update the value in place when the key
exists (keeping its position), else append the new binding at the end. -/
def dictInsert (m : List (Char × α)) (k : Char) (v : α) : List (Char × α) :=
  if (m.lookup k).isSome then
    m.map (fun kv => if kv.1 = k then (k, v) else kv)
  else
    m ++ [(k, v)]

/-- Python `dict(zip(ks, vs))`: pair positionally (truncating to the shorter
list); a repeated key keeps its first position, its value overwritten. -/
def dictZip (ks : List Char) (vs : List α) : List (Char × α) :=
  (ks.zip vs).foldl (fun m kv => dictInsert m kv.1 kv.2) []

/-- One compiled bouquet design, as stored in the Python matching structure:
`{'total_number_of_flowers': str, 'flowers': dict str→str, 'bouquet': str}`.
Quantities are kept as digit strings, converted by `int` at use sites,
exactly as in the source. -/
structure Recipe where
  total_number_of_flowers : List Char
  flowers : List (Char × List Char)
  bouquet : List Char
deriving DecidableEq, Repr

/-- `create_bouquet_designs_matching_structure` (lines 96–118): compile one
raw design string. `none` models the Python runtime errors on
`bouquet_design[0]` of an empty string and on `pop()` of an empty quantity
list — never reached for designs produced by the extraction pattern. -/
def create_bouquet_designs_matching_structure (bouquet_design : List Char) :
    Option (Char × Recipe) :=
  match bouquet_design with
  | [] => none
  | c0 :: _ =>
    let number_of_flowers := digitRuns (bouquet_design.drop 2)
    let flower_names := (bouquet_design.drop 2).filter Char.isLower
    match number_of_flowers.getLast? with
    | none => none
    | some total =>
      some (c0, { total_number_of_flowers := total
                  flowers := dictZip flower_names number_of_flowers.dropLast
                  bouquet := removeOccs total bouquet_design })

/-- A size-class registry: the Python dict keyed by the design's first
character, in insertion order. -/
abbrev Registry := List (Char × Recipe)

/-- Lines 36–40 of `production_facility`: a raw design goes into the large
container when the character 'L' occurs *anywhere* in it (`'L' in
bouquet_design`), else into the small container. -/
def add_bouquet_design (regs : Registry × Registry) (bouquet_design : List Char) :
    Registry × Registry :=
  match create_bouquet_designs_matching_structure bouquet_design with
  | none => regs
  | some (k, r) =>
    if bouquet_design.contains 'L' then (dictInsert regs.1 k r, regs.2)
    else (regs.1, dictInsert regs.2 k r)

/-- The loop of lines 36–40 over all extracted designs; result is
(large registry, small registry). -/
def build_registries (designs : List (List Char)) : Registry × Registry :=
  designs.foldl add_bouquet_design ([], [])

/-- A size-class inventory: the Python `defaultdict(int)` flower counter,
an insertion-ordered association list from flower type to count. -/
abbrev Inventory := List (Char × Int)

/-- `flowers_counter[t] += 1` on a `defaultdict(int)` (line 69): bump the
count in place, creating a new entry `(t, 1)` at the end when absent. -/
def incr (inv : Inventory) (t : Char) : Inventory :=
  if (inv.lookup t).isSome then
    inv.map (fun kv => if kv.1 = t then (kv.1, kv.2 + 1) else kv)
  else
    inv ++ [(t, 1)]

/-- The dict comprehension of lines 72–74: the counter entries whose key is
in the design's `flowers` with a count ≥ the required quantity. -/
def matching_flower_numbers (inv : Inventory) (r : Recipe) : Inventory :=
  inv.filter (fun kv =>
    match r.flowers.lookup kv.1 with
    | some q => decide ((numVal q : Int) ≤ kv.2)
    | none => false)

/-- The check of line 76: the comprehension has as many entries as the
design has required flower types. -/
def satisfiable (inv : Inventory) (r : Recipe) : Bool :=
  (matching_flower_numbers inv r).length == r.flowers.length

/-- Lines 77–78: declared total minus the sum of the required quantities. -/
def number_of_additional_flowers (r : Recipe) : Int :=
  (numVal r.total_number_of_flowers : Int) -
    (r.flowers.map (fun kv => (numVal kv.2 : Int))).sum

/-- Lines 81–83: subtract each required quantity from the corresponding
counter entry; entries of other flower types are kept as they are. -/
def named_deduction (inv : Inventory) (r : Recipe) : Inventory :=
  inv.map (fun kv =>
    match r.flowers.lookup kv.1 with
    | some q => (kv.1, kv.2 - (numVal q : Int))
    | none => kv)

/-- Lines 88–91: scan the counter in its current order and subtract the full
filler amount from the first entry whose count is ≥ the filler; `break`. -/
def filler_deduction (f : Int) : Inventory → Inventory
  | [] => []
  | kv :: rest =>
    if f ≤ kv.2 then (kv.1, kv.2 - f) :: rest
    else kv :: filler_deduction f rest

/-- The body of the per-design loop (lines 72–93) for one design: on success
return the counter after named and filler deductions together with the
emitted bouquet string; otherwise leave the counter unchanged. -/
def try_bouquet_design (inv : Inventory) (r : Recipe) : Inventory × Option (List Char) :=
  if satisfiable inv r then
    let inv1 := named_deduction inv r
    let inv2 := if 0 < number_of_additional_flowers r then
        filler_deduction (number_of_additional_flowers r) inv1
      else inv1
    (inv2, some r.bouquet)
  else (inv, none)

/-- The loop of line 71 over the whole registry (no `break` after a match):
each design is tried in registry order against the counter as left by the
previous designs; all emissions of the arrival are collected in order. -/
def run_bouquet_designs : Registry → Inventory → Inventory × List (List Char)
  | [], inv => (inv, [])
  | (_, r) :: rest, inv =>
    let p := try_bouquet_design inv r
    let q := run_bouquet_designs rest p.1
    (q.1, p.2.toList ++ q.2)

/-- `match_flower_streams_with_bouquet_design_structures` (lines 52–93):
count the arriving flower, then run every design of the registry. -/
def match_flower_streams_with_bouquet_design_structures (flower : Char)
    (bouquet_designs : Registry) (flowers_counter : Inventory) :
    Inventory × List (List Char) :=
  run_bouquet_designs bouquet_designs (incr flowers_counter flower)

/-- Lines 45–49 of `production_facility`: dispatch one streamed flower
`(type, size)` on `flower[1] == 'L'` to its size class's registry and
counter; the other size class's counter is untouched. -/
def production_facility_step (regs : Registry × Registry)
    (counters : Inventory × Inventory) (flower : Char × Char) :
    (Inventory × Inventory) × List (List Char) :=
  if flower.2 = 'L' then
    let p := match_flower_streams_with_bouquet_design_structures flower.1 regs.1 counters.1
    ((p.1, counters.2), p.2)
  else
    let p := match_flower_streams_with_bouquet_design_structures flower.1 regs.2 counters.2
    ((counters.1, p.1), p.2)

/-! ### Definitions written from the spec's words, for comparison only -/

/-- Modelled from the spec (§3): the Inventory count of a flower type, taken
as zero when the type has no entry ("Starts empty (all types implicitly
zero)"). Used only to state the spec's satisfiability condition. -/
def specCount (inv : Inventory) (k : Char) : Int :=
  (inv.lookup k).getD 0

/-- Modelled from the spec (§4.1 step 5): delete only the *first* occurrence
of `pat`, for comparison with the code's remove-all `removeOccs`. -/
def removeFirstOcc (pat : List Char) : List Char → List Char
  | [] => []
  | c :: rest =>
    if pat ≠ [] ∧ pat.isPrefixOf (c :: rest) then
      rest.drop (pat.length - 1)
    else
      c :: removeFirstOcc pat rest

/-- Fuel-driven worker for `occCount`. -/
def occCountAux (pat : List Char) : Nat → List Char → Nat
  | 0, _ => 0
  | _ + 1, [] => 0
  | fuel + 1, c :: rest =>
    if pat ≠ [] ∧ pat.isPrefixOf (c :: rest) then
      occCountAux pat fuel (rest.drop (pat.length - 1)) + 1
    else
      occCountAux pat fuel rest

/-- The number of left-to-right non-overlapping occurrences of `pat` deleted
by `removeOccs`. -/
def occCount (pat s : List Char) : Nat :=
  occCountAux pat s.length s

lemma occCountAux_congr (pat : List Char) : ∀ (f1 f2 : Nat) (s : List Char),
    s.length ≤ f1 → s.length ≤ f2 → occCountAux pat f1 s = occCountAux pat f2 s := by
  intro f1
  induction f1 with
  | zero =>
    intro f2 s h1 h2
    have hs : s = [] := List.eq_nil_of_length_eq_zero (by omega)
    subst hs
    cases f2 <;> rfl
  | succ n ih =>
    intro f2 s h1 h2
    cases s with
    | nil => cases f2 <;> rfl
    | cons c rest =>
      cases f2 with
      | zero => simp at h2
      | succ m =>
        simp only [List.length_cons] at h1 h2
        have hdr := List.length_drop (pat.length - 1) rest
        simp only [occCountAux]
        by_cases hp : pat ≠ [] ∧ pat.isPrefixOf (c :: rest)
        · rw [if_pos hp, if_pos hp, ih m (rest.drop (pat.length - 1)) (by omega) (by omega)]
        · rw [if_neg hp, if_neg hp, ih m rest (by omega) (by omega)]

lemma occCount_nil (pat : List Char) : occCount pat [] = 0 := rfl

lemma occCount_cons (pat : List Char) (c : Char) (rest : List Char) :
    occCount pat (c :: rest) =
      if pat ≠ [] ∧ pat.isPrefixOf (c :: rest) then
        occCount pat (rest.drop (pat.length - 1)) + 1
      else
        occCount pat rest := by
  unfold occCount
  simp only [List.length_cons, occCountAux]
  have hdr := List.length_drop (pat.length - 1) rest
  by_cases hp : pat ≠ [] ∧ pat.isPrefixOf (c :: rest)
  · simp only [hp, if_pos]
    rw [occCountAux_congr pat rest.length (rest.drop (pat.length - 1)).length
      (rest.drop (pat.length - 1)) (by omega) (by omega)]
  · simp only [hp, if_false]

/-- A well-shaped raw design string assembled from its parts: an identifier,
a size-class letter, the (quantity, flower-type) pairs in order, and the
trailing total quantity. -/
def descOfPairs (c0 c1 : Char) (ps : List (List Char × Char)) (qt : List Char) :
    List Char :=
  c0 :: c1 :: ((ps.map (fun p => p.1 ++ [p.2])).flatten ++ qt)

/-! ### Character-class facts -/

lemma isLower_of_isDigit_eq_false {c : Char} (h : c.isDigit = true) :
    c.isLower = false := by
  simp only [Char.isDigit, Char.isLower, Bool.and_eq_true, decide_eq_true_eq] at *
  obtain ⟨h1, h2⟩ := h
  have h2' : c.val.toNat ≤ 57 := h2
  simp only [Bool.and_eq_false_iff, decide_eq_false_iff_not]
  left
  intro hge
  have : (97 : Nat) ≤ c.val.toNat := hge
  omega

lemma isDigit_of_isLower_eq_false {c : Char} (h : c.isLower = true) :
    c.isDigit = false := by
  simp only [Char.isDigit, Char.isLower, Bool.and_eq_true, decide_eq_true_eq] at *
  obtain ⟨h1, h2⟩ := h
  have h1' : (97 : Nat) ≤ c.val.toNat := h1
  simp only [Bool.and_eq_false_iff, decide_eq_false_iff_not]
  right
  intro hle
  have : c.val.toNat ≤ 57 := hle
  omega

/-! ### Association-list lookup facts -/

lemma mem_of_lookup_eq_some {β : Type} {l : List (Char × β)} {k : Char} {v : β}
    (h : l.lookup k = some v) : (k, v) ∈ l := by
  induction l with
  | nil => simp [List.lookup] at h
  | cons a t ih =>
    rw [List.lookup] at h
    by_cases hk : k == a.1
    · simp only [hk, if_pos] at h
      have hke : k = a.1 := beq_iff_eq.mp hk
      subst hke
      simp only [Option.some.injEq] at h
      simp [← h]
    · simp [hk] at h
      exact List.mem_cons_of_mem _ (ih h)

lemma lookup_eq_some_of_mem_nodup {β : Type} {l : List (Char × β)}
    (hn : (l.map Prod.fst).Nodup) {k : Char} {v : β} (h : (k, v) ∈ l) :
    l.lookup k = some v := by
  induction l with
  | nil => simp at h
  | cons a t ih =>
    simp only [List.map_cons, List.nodup_cons] at hn
    rcases List.mem_cons.mp h with h1 | h1
    · rw [← h1, List.lookup]
      simp
    · have hk : k ≠ a.1 := by
        intro e
        apply hn.1
        rw [e] at h1
        exact List.mem_map.mpr ⟨(a.1, v), h1, rfl⟩
      rw [List.lookup]
      have : (k == a.1) = false := beq_eq_false_iff_ne.mpr hk
      simp only [this, Bool.false_eq_true, if_false]
      exact ih hn.2 h1

lemma lookup_isSome_iff_mem_keys {β : Type} {l : List (Char × β)} {k : Char} :
    (l.lookup k).isSome = true ↔ k ∈ l.map Prod.fst := by
  induction l with
  | nil => simp [List.lookup]
  | cons a t ih =>
    rw [List.lookup]
    by_cases hk : k == a.1
    · have hke : k = a.1 := beq_iff_eq.mp hk
      simp [hk, hke]
    · have hkn : k ≠ a.1 := fun e => hk (beq_iff_eq.mpr e)
      simp [hk, hkn, ih]

/-! ### Behaviour of `incr` -/

lemma lookup_map_bump (t : Char) (inv : Inventory) (k : Char) :
    (inv.map (fun kv => if kv.1 = t then (kv.1, kv.2 + 1) else kv)).lookup k
      = (inv.lookup k).map (fun v => if k = t then v + 1 else v) := by
  induction inv with
  | nil => simp
  | cons a rest ih =>
    obtain ⟨ak, av⟩ := a
    by_cases hat : ak = t
    · subst hat
      by_cases hk : k = ak
      · subst hk
        simp [List.lookup_cons]
      · simp [List.lookup_cons, beq_eq_false_iff_ne.mpr hk, ih]
    · by_cases hk : k = ak
      · subst hk
        simp [List.lookup_cons, hat]
      · simp [List.lookup_cons, hat, beq_eq_false_iff_ne.mpr hk, ih]

lemma lookup_incr_self (inv : Inventory) (t : Char) :
    (incr inv t).lookup t = some ((inv.lookup t).getD 0 + 1) := by
  unfold incr
  cases hl : inv.lookup t with
  | some v =>
    simp only [hl, Option.isSome_some, if_pos]
    rw [lookup_map_bump]
    simp [hl]
  | none =>
    simp only [hl, Option.isSome_none, Bool.false_eq_true, if_false]
    rw [List.lookup_append, hl]
    simp [List.lookup_cons]

lemma lookup_incr_other (inv : Inventory) (t k : Char) (hk : k ≠ t) :
    (incr inv t).lookup k = inv.lookup k := by
  unfold incr
  by_cases hs : (inv.lookup t).isSome
  · simp only [hs, if_pos]
    rw [lookup_map_bump]
    cases h : inv.lookup k <;> simp [hk]
  · simp only [hs, Bool.false_eq_true, if_false]
    rw [List.lookup_append]
    have h1 : List.lookup k [(t, (1 : Int))] = none := by
      simp [List.lookup_cons, beq_eq_false_iff_ne.mpr hk]
    rw [h1]
    cases inv.lookup k <;> simp

/-! ### Behaviour of the per-arrival loop -/

lemma run_nil (inv : Inventory) : run_bouquet_designs [] inv = (inv, []) := rfl

lemma run_cons (k : Char) (r : Recipe) (rest : Registry) (inv : Inventory) :
    run_bouquet_designs ((k, r) :: rest) inv =
      ((run_bouquet_designs rest (try_bouquet_design inv r).1).1,
       (try_bouquet_design inv r).2.toList ++
         (run_bouquet_designs rest (try_bouquet_design inv r).1).2) := rfl

lemma run_bouquet_designs_length_le (reg : Registry) :
    ∀ inv : Inventory, (run_bouquet_designs reg inv).2.length ≤ reg.length := by
  induction reg with
  | nil =>
    intro inv
    simp [run_nil]
  | cons a rest ih =>
    intro inv
    obtain ⟨k, r⟩ := a
    rw [run_cons]
    have h1 : (try_bouquet_design inv r).2.toList.length ≤ 1 := by
      cases (try_bouquet_design inv r).2 <;> simp
    have h2 := ih (try_bouquet_design inv r).1
    simp only [List.length_append, List.length_cons]
    omega

lemma run_bouquet_designs_append (l1 : Registry) :
    ∀ (l2 : Registry) (inv : Inventory),
      run_bouquet_designs (l1 ++ l2) inv =
        ((run_bouquet_designs l2 (run_bouquet_designs l1 inv).1).1,
         (run_bouquet_designs l1 inv).2 ++
           (run_bouquet_designs l2 (run_bouquet_designs l1 inv).1).2) := by
  induction l1 with
  | nil =>
    intro l2 inv
    simp [run_nil]
  | cons a rest ih =>
    intro l2 inv
    obtain ⟨k, r⟩ := a
    rw [List.cons_append, run_cons, run_cons, ih]
    simp [List.append_assoc]

lemma try_bouquet_design_of_not_sat {inv : Inventory} {r : Recipe}
    (h : satisfiable inv r = false) : try_bouquet_design inv r = (inv, none) := by
  unfold try_bouquet_design
  rw [h]
  simp

lemma run_bouquet_designs_no_sat (reg : Registry) (inv : Inventory)
    (h : ∀ kr ∈ reg, satisfiable inv kr.2 = false) :
    run_bouquet_designs reg inv = (inv, []) := by
  induction reg with
  | nil => rfl
  | cons a rest ih =>
    obtain ⟨k, r⟩ := a
    have hr : satisfiable inv r = false := h (k, r) (List.mem_cons_self _ _)
    rw [run_cons, try_bouquet_design_of_not_sat hr]
    simp only
    rw [ih (fun kr hm => h kr (List.mem_cons_of_mem _ hm))]
    simp

/-! ### Behaviour of the filler deduction -/

lemma filler_deduction_cons (f : Int) (a : Char × Int) (rest : Inventory) :
    filler_deduction f (a :: rest) =
      if f ≤ a.2 then (a.1, a.2 - f) :: rest else a :: filler_deduction f rest := rfl

lemma filler_deduction_of_all_lt (f : Int) (inv : Inventory)
    (h : ∀ kv ∈ inv, kv.2 < f) : filler_deduction f inv = inv := by
  induction inv with
  | nil => rfl
  | cons a rest ih =>
    have ha : a.2 < f := h a (List.mem_cons_self _ _)
    rw [filler_deduction_cons, if_neg (by omega)]
    rw [ih (fun kv hm => h kv (List.mem_cons_of_mem _ hm))]

lemma filler_deduction_split (f : Int) (pre : Inventory) (k : Char) (v : Int)
    (post : Inventory) (hpre : ∀ kv ∈ pre, kv.2 < f) (hv : f ≤ v) :
    filler_deduction f (pre ++ (k, v) :: post) = pre ++ (k, v - f) :: post := by
  induction pre with
  | nil =>
    simp only [List.nil_append]
    rw [filler_deduction_cons, if_pos hv]
  | cons a rest ih =>
    have ha : a.2 < f := hpre a (List.mem_cons_self _ _)
    rw [List.cons_append, filler_deduction_cons, if_neg (by omega),
      ih (fun kv hm => hpre kv (List.mem_cons_of_mem _ hm))]
    simp

/-! ### Behaviour of the named deduction -/

lemma named_deduction_cons (ak : Char) (av : Int) (rest : Inventory) (r : Recipe) :
    named_deduction ((ak, av) :: rest) r =
      (match r.flowers.lookup ak with
       | some q => (ak, av - (numVal q : Int))
       | none => (ak, av)) :: named_deduction rest r := rfl

lemma lookup_named_deduction (inv : Inventory) (r : Recipe) (k : Char) :
    (named_deduction inv r).lookup k =
      (inv.lookup k).map (fun v =>
        match r.flowers.lookup k with
        | some q => v - (numVal q : Int)
        | none => v) := by
  induction inv with
  | nil => simp [named_deduction]
  | cons a rest ih =>
    obtain ⟨ak, av⟩ := a
    rw [named_deduction_cons]
    by_cases hk : k = ak
    · subst hk
      cases hf : r.flowers.lookup k with
      | none => simp [List.lookup_cons, hf]
      | some q => simp [List.lookup_cons, hf]
    · have hne := beq_eq_false_iff_ne.mpr hk
      cases hf : r.flowers.lookup ak with
      | none => simp [List.lookup_cons, hne, hf, ih]
      | some q => simp [List.lookup_cons, hne, hf, ih]

/-! ### Characterisation of the satisfiability check -/

lemma mem_matching_flower_numbers {inv : Inventory} {r : Recipe} {kv : Char × Int} :
    kv ∈ matching_flower_numbers inv r ↔
      kv ∈ inv ∧ ∃ q, r.flowers.lookup kv.1 = some q ∧ (numVal q : Int) ≤ kv.2 := by
  unfold matching_flower_numbers
  rw [List.mem_filter]
  constructor
  · rintro ⟨h1, h2⟩
    refine ⟨h1, ?_⟩
    cases hf : r.flowers.lookup kv.1 with
    | none =>
      rw [hf] at h2
      simp at h2
    | some q =>
      rw [hf] at h2
      simp only [decide_eq_true_eq] at h2
      exact ⟨q, rfl, h2⟩
  · rintro ⟨h1, q, hq, hle⟩
    refine ⟨h1, ?_⟩
    rw [hq]
    simpa using hle

lemma keys_matching_subset {inv : Inventory} {r : Recipe} {k : Char}
    (h : k ∈ (matching_flower_numbers inv r).map Prod.fst) :
    k ∈ r.flowers.map Prod.fst := by
  obtain ⟨kv, hkv, rfl⟩ := List.mem_map.mp h
  obtain ⟨-, q, hq, -⟩ := mem_matching_flower_numbers.mp hkv
  exact List.mem_map.mpr ⟨(kv.1, q), mem_of_lookup_eq_some hq, rfl⟩

lemma satisfiable_iff {inv : Inventory} {r : Recipe}
    (hinv : (inv.map Prod.fst).Nodup) (hr : (r.flowers.map Prod.fst).Nodup) :
    satisfiable inv r = true ↔
      ∀ kq ∈ r.flowers, ∃ v, inv.lookup kq.1 = some v ∧ (numVal kq.2 : Int) ≤ v := by
  have hMnodup : ((matching_flower_numbers inv r).map Prod.fst).Nodup :=
    List.Nodup.sublist (List.Sublist.map Prod.fst (List.filter_sublist inv)) hinv
  have hsub : ((matching_flower_numbers inv r).map Prod.fst).toFinset ⊆
      (r.flowers.map Prod.fst).toFinset := by
    intro k hk
    exact List.mem_toFinset.mpr (keys_matching_subset (List.mem_toFinset.mp hk))
  have hcardM : ((matching_flower_numbers inv r).map Prod.fst).toFinset.card =
      (matching_flower_numbers inv r).length := by
    rw [List.toFinset_card_of_nodup hMnodup, List.length_map]
  have hcardF : ((r.flowers.map Prod.fst).toFinset).card = r.flowers.length := by
    rw [List.toFinset_card_of_nodup hr, List.length_map]
  unfold satisfiable
  rw [beq_iff_eq]
  constructor
  · intro hlen kq hkq
    have hset : ((matching_flower_numbers inv r).map Prod.fst).toFinset =
        (r.flowers.map Prod.fst).toFinset :=
      Finset.eq_of_subset_of_card_le hsub (by omega)
    have hkmem : kq.1 ∈ (matching_flower_numbers inv r).map Prod.fst := by
      rw [← List.mem_toFinset, hset, List.mem_toFinset]
      exact List.mem_map.mpr ⟨kq, hkq, rfl⟩
    obtain ⟨kv, hkv, hfst⟩ := List.mem_map.mp hkmem
    obtain ⟨hkvinv, q, hq, hle⟩ := mem_matching_flower_numbers.mp hkv
    have hqval : r.flowers.lookup kq.1 = some kq.2 := by
      have : (kq.1, kq.2) ∈ r.flowers := by
        rw [Prod.mk.eta]
        exact hkq
      exact lookup_eq_some_of_mem_nodup hr this
    rw [hfst] at hq
    rw [hqval] at hq
    have hqq : q = kq.2 := by
      injection hq.symm
    subst hqq
    refine ⟨kv.2, ?_, hle⟩
    rw [← hfst]
    exact lookup_eq_some_of_mem_nodup hinv (by rw [Prod.mk.eta]; exact hkvinv)
  · intro hall
    have hsub2 : (r.flowers.map Prod.fst).toFinset ⊆
        ((matching_flower_numbers inv r).map Prod.fst).toFinset := by
      intro k hk
      obtain ⟨kq, hkq, hfst⟩ := List.mem_map.mp (List.mem_toFinset.mp hk)
      obtain ⟨v, hv, hle⟩ := hall kq hkq
      have hkvM : (kq.1, v) ∈ matching_flower_numbers inv r := by
        rw [mem_matching_flower_numbers]
        refine ⟨mem_of_lookup_eq_some hv, kq.2, ?_, hle⟩
        exact lookup_eq_some_of_mem_nodup hr (by rw [Prod.mk.eta]; exact hkq)
      rw [List.mem_toFinset, ← hfst]
      exact List.mem_map.mpr ⟨(kq.1, v), hkvM, rfl⟩
    have hset := Finset.Subset.antisymm hsub hsub2
    have hc := congrArg Finset.card hset
    rw [hcardM, hcardF] at hc
    exact hc

lemma try_snd_of_sat {inv : Inventory} {r : Recipe}
    (h : satisfiable inv r = true) :
    (try_bouquet_design inv r).2 = some r.bouquet := by
  simp [try_bouquet_design, h]

lemma try_fst_of_sat {inv : Inventory} {r : Recipe}
    (h : satisfiable inv r = true) :
    (try_bouquet_design inv r).1 =
      if 0 < number_of_additional_flowers r then
        filler_deduction (number_of_additional_flowers r) (named_deduction inv r)
      else named_deduction inv r := by
  simp [try_bouquet_design, h]

lemma satisfiable_of_empty_flowers {r : Recipe} (h : r.flowers = [])
    (inv : Inventory) : satisfiable inv r = true := by
  unfold satisfiable matching_flower_numbers
  rw [h]
  simp [List.lookup]

lemma bouquet_mem_run (reg : Registry) :
    ∀ (inv : Inventory) (k : Char) (r : Recipe), (k, r) ∈ reg →
      (∀ i : Inventory, satisfiable i r = true) →
      r.bouquet ∈ (run_bouquet_designs reg inv).2 := by
  induction reg with
  | nil =>
    intro inv k r h hs
    simp at h
  | cons a rest ih =>
    intro inv k r hmem hsat
    obtain ⟨k0, r0⟩ := a
    rw [run_cons]
    rcases List.mem_cons.mp hmem with he | hm
    · have he2 : r = r0 := congrArg Prod.snd he
      subst he2
      rw [try_snd_of_sat (hsat inv)]
      simp
    · exact List.mem_append_right _ (ih _ k r hm hsat)

/-! ### Claim theorems -/

/-- C1 (amended): the per-design loop has no break after a match, so a
single incoming flower can produce several emissions — one for each design
that is satisfiable when its turn comes — though never more than the number
of designs registered for the size class. -/
theorem c1_per_arrival_emission_bound (flower : Char) (reg : Registry)
    (inv : Inventory) :
    (match_flower_streams_with_bouquet_design_structures flower reg inv).2.length ≤
      reg.length :=
  run_bouquet_designs_length_le reg (incr inv flower)

/-- C1 counterexample: with the two registered designs `AS15` and `BS25`
(both with empty required-flower maps), the single arriving small flower `a`
produces two emissions, refuting "a single incoming flower never produces
two or more emissions". -/
theorem c1_counterexample_two_emissions :
    ¬ ((match_flower_streams_with_bouquet_design_structures 'a'
        (build_registries [("AS15".toList), ("BS25".toList)]).2 []).2.length ≤ 1) := by
  decide

/-- C3: on a match with positive filler, the design's bouquet is emitted
and, after the named deductions, the filler is subtracted in full from the
first counter entry (in current counter order) whose count is ≥ the filler,
with every other entry untouched; when no single entry is large enough the
counter is left exactly as the named deductions produced it. -/
theorem c3_filler_policy (inv : Inventory) (r : Recipe)
    (hsat : satisfiable inv r = true)
    (hf : 0 < number_of_additional_flowers r) :
    (try_bouquet_design inv r).2 = some r.bouquet ∧
    ((∀ kv ∈ named_deduction inv r, kv.2 < number_of_additional_flowers r) →
      (try_bouquet_design inv r).1 = named_deduction inv r) ∧
    (∀ pre kk v post, named_deduction inv r = pre ++ (kk, v) :: post →
      (∀ kv ∈ pre, kv.2 < number_of_additional_flowers r) →
      number_of_additional_flowers r ≤ v →
      (try_bouquet_design inv r).1 =
        pre ++ (kk, v - number_of_additional_flowers r) :: post) := by
  have h1 : (try_bouquet_design inv r).1 =
      filler_deduction (number_of_additional_flowers r) (named_deduction inv r) := by
    rw [try_fst_of_sat hsat, if_pos hf]
  refine ⟨try_snd_of_sat hsat, ?_, ?_⟩
  · intro hall
    rw [h1, filler_deduction_of_all_lt _ _ hall]
  · intro pre kk v post hsplit hpre hv
    rw [h1, hsplit, filler_deduction_split _ _ _ _ _ hpre hv]

/-- C3 witness: design `AS1a3` (1 of `a`, total 3, filler 2) matched against
the counter `{a: 2, b: 5}`: after the named deduction (`{a: 1, b: 5}`) the
first entry with count ≥ 2 is `b`, which alone loses the filler. -/
theorem c3_filler_policy_witness :
    (try_bouquet_design [('a', 2), ('b', 5)]
      ⟨"3".toList, [('a', "1".toList)], "AS1a".toList⟩).2 =
        some ("AS1a".toList) ∧
    (try_bouquet_design [('a', 2), ('b', 5)]
      ⟨"3".toList, [('a', "1".toList)], "AS1a".toList⟩).1 = [('a', 1), ('b', 3)] := by
  have h := c3_filler_policy [('a', 2), ('b', 5)]
    ⟨"3".toList, [('a', "1".toList)], "AS1a".toList⟩ (by decide) (by decide)
  refine ⟨h.1, ?_⟩
  have h3 := h.2.2 [('a', 1)] 'b' 5 [] (by decide) (by decide) (by decide)
  rw [h3]
  decide

/-- C4 (amended): the check of line 76 succeeds iff every required flower
type has an entry in the counter — i.e. has arrived at least once — with
count ≥ its required quantity; consequently a required type with quantity 0
that has never arrived blocks the match, while an empty required-flower map
is always satisfiable. -/
theorem c4_satisfiability_characterisation (inv : Inventory) (r : Recipe)
    (hinv : (inv.map Prod.fst).Nodup) (hr : (r.flowers.map Prod.fst).Nodup) :
    (satisfiable inv r = true ↔
      ∀ kq ∈ r.flowers, ∃ v, inv.lookup kq.1 = some v ∧ (numVal kq.2 : Int) ≤ v) ∧
    (r.flowers = [] → satisfiable inv r = true) :=
  ⟨satisfiable_iff hinv hr, fun h => satisfiable_of_empty_flowers h inv⟩

/-- C4 witness: for the counter `{a: 3}` and compiled design `AS2a4`
(2 of `a`), both parts of the characterisation hold at a concrete input. -/
theorem c4_satisfiability_characterisation_witness :
    (satisfiable [('a', 3)] ⟨"4".toList, [('a', "2".toList)], "AS2a".toList⟩ = true ↔
      ∀ kq ∈ [('a', "2".toList)],
        ∃ v, List.lookup kq.1 [('a', (3 : Int))] = some v ∧ (numVal kq.2 : Int) ≤ v) ∧
    ([('a', "2".toList)] = ([] : List (Char × List Char)) →
      satisfiable [('a', 3)] ⟨"4".toList, [('a', "2".toList)], "AS2a".toList⟩ = true) :=
  c4_satisfiability_characterisation [('a', 3)]
    ⟨"4".toList, [('a', "2".toList)], "AS2a".toList⟩ (by decide) (by decide)

/-- C4 counterexample: the design `AS0a5` requires 0 of type `a`; against the
counter `{b: 1}` (type `a` never arrived) the claim's condition — every
required type's count, implicitly zero when absent, ≥ its quantity — holds,
yet the code's check fails, refuting the claimed "if and only if". -/
theorem c4_counterexample_zero_quantity :
    create_bouquet_designs_matching_structure ("AS0a5".toList) =
      some ('A', ⟨"5".toList, [('a', "0".toList)], "AS0a".toList⟩) ∧
    (∀ kq ∈ [('a', "0".toList)], (numVal kq.2 : Int) ≤ specCount [('b', 1)] kq.1) ∧
    satisfiable [('b', 1)] ⟨"5".toList, [('a', "0".toList)], "AS0a".toList⟩ = false := by
  decide

/-- C5: on a match, every flower type in the design's required map has its
count decremented by exactly the required quantity, the new count staying
≥ 0, while the named deduction leaves every type outside the required map
with its count unchanged. -/
theorem c5_named_deduction_correct (inv : Inventory) (r : Recipe)
    (hinv : (inv.map Prod.fst).Nodup) (hr : (r.flowers.map Prod.fst).Nodup)
    (hsat : satisfiable inv r = true) :
    (∀ k q, r.flowers.lookup k = some q →
      ∃ v, inv.lookup k = some v ∧ (numVal q : Int) ≤ v ∧
        (named_deduction inv r).lookup k = some (v - (numVal q : Int)) ∧
        0 ≤ v - (numVal q : Int)) ∧
    (∀ k, r.flowers.lookup k = none →
      (named_deduction inv r).lookup k = inv.lookup k) := by
  constructor
  · intro k q hq
    have hmem : (k, q) ∈ r.flowers := mem_of_lookup_eq_some hq
    obtain ⟨v, hv, hle⟩ := (satisfiable_iff hinv hr).mp hsat (k, q) hmem
    have hle2 : (numVal q : Int) ≤ v := hle
    have hd : (named_deduction inv r).lookup k = some (v - (numVal q : Int)) := by
      rw [lookup_named_deduction, hv]
      simp [hq]
    exact ⟨v, hv, hle2, hd, by omega⟩
  · intro k hk
    rw [lookup_named_deduction]
    cases inv.lookup k <;> simp [hk]

/-- C5 witness: counter `{a: 3, b: 1}` matched with design `AS2a4`
(2 of `a`): the conclusion holds at this concrete input. -/
theorem c5_named_deduction_correct_witness :
    (∀ k q, List.lookup k [('a', "2".toList)] = some q →
      ∃ v, List.lookup k [('a', (3 : Int)), ('b', 1)] = some v ∧
        (numVal q : Int) ≤ v ∧
        (named_deduction [('a', 3), ('b', 1)]
          ⟨"4".toList, [('a', "2".toList)], "AS2a".toList⟩).lookup k =
            some (v - (numVal q : Int)) ∧
        0 ≤ v - (numVal q : Int)) ∧
    (∀ k, List.lookup k [('a', "2".toList)] = none →
      (named_deduction [('a', 3), ('b', 1)]
        ⟨"4".toList, [('a', "2".toList)], "AS2a".toList⟩).lookup k =
          List.lookup k [('a', (3 : Int)), ('b', 1)]) :=
  c5_named_deduction_correct [('a', 3), ('b', 1)]
    ⟨"4".toList, [('a', "2".toList)], "AS2a".toList⟩ (by decide) (by decide) (by decide)

/-- C8 (amended): a design that is satisfiable when its turn comes in the
registry scan is emitted, after every emission of earlier designs and before
every emission of later designs; since the loop has no break, a later design
may additionally be emitted in the same arrival if it is still satisfiable
after the earlier deductions. -/
theorem c8_registry_order_precedence (l1 : Registry) (k : Char) (r : Recipe)
    (l2 : Registry) (inv : Inventory)
    (h : satisfiable (run_bouquet_designs l1 inv).1 r = true) :
    (run_bouquet_designs (l1 ++ (k, r) :: l2) inv).2 =
      (run_bouquet_designs l1 inv).2 ++
        r.bouquet ::
          (run_bouquet_designs l2
            (try_bouquet_design (run_bouquet_designs l1 inv).1 r).1).2 := by
  have h1 := congrArg Prod.snd (run_bouquet_designs_append l1 ((k, r) :: l2) inv)
  simp only at h1
  rw [h1, run_cons]
  simp only
  rw [try_snd_of_sat h]
  simp

/-- C8 witness: with the empty-requirement designs of `AS15` and `BS25` both
satisfiable on the first arriving `a`, the earlier design `A` is emitted
first (and `B` is also emitted afterwards in the same arrival). -/
theorem c8_registry_order_precedence_witness :
    (run_bouquet_designs
      ([] ++ ('A', (⟨"15".toList, [], "AS".toList⟩ : Recipe)) ::
        [('B', (⟨"25".toList, [], "BS".toList⟩ : Recipe))]) [('a', 1)]).2 =
      (run_bouquet_designs [] [('a', 1)]).2 ++
        "AS".toList ::
          (run_bouquet_designs [('B', (⟨"25".toList, [], "BS".toList⟩ : Recipe))]
            (try_bouquet_design (run_bouquet_designs [] [('a', 1)]).1
              (⟨"15".toList, [], "AS".toList⟩ : Recipe)).1).2 :=
  c8_registry_order_precedence [] 'A' ⟨"15".toList, [], "AS".toList⟩
    [('B', ⟨"25".toList, [], "BS".toList⟩)] [('a', 1)] (by decide)

/-- C8 counterexample: both designs of `AS15` and `BS25` are satisfiable
when the flower arrives, yet the arrival's emissions are not just the
earlier design's code — the later design is emitted too — refuting the
claim that the earlier one "is the one emitted". -/
theorem c8_counterexample_both_emitted :
    satisfiable (incr [] 'a') (⟨"15".toList, [], "AS".toList⟩ : Recipe) = true ∧
    satisfiable (incr [] 'a') (⟨"25".toList, [], "BS".toList⟩ : Recipe) = true ∧
    (match_flower_streams_with_bouquet_design_structures 'a'
      (build_registries [("AS15".toList), ("BS25".toList)]).2 []).2 ≠
        ["AS".toList] := by
  decide

/-- C9: after a flower arrival on which no design of its size class is
satisfiable, nothing is emitted, the arriving type's count in that size
class rises by exactly one (a new entry starts at 1), every other count in
that size class is unchanged, and the other size class's counter is left
untouched. -/
theorem c9_no_match_frame (regs : Registry × Registry) (linv sinv : Inventory)
    (t sz : Char)
    (hns : ∀ kr ∈ (if sz = 'L' then regs.1 else regs.2),
      satisfiable (incr (if sz = 'L' then linv else sinv) t) kr.2 = false) :
    (production_facility_step regs (linv, sinv) (t, sz)).2 = [] ∧
    (production_facility_step regs (linv, sinv) (t, sz)).1 =
      (if sz = 'L' then (incr linv t, sinv) else (linv, incr sinv t)) ∧
    (incr (if sz = 'L' then linv else sinv) t).lookup t =
      some (((if sz = 'L' then linv else sinv).lookup t).getD 0 + 1) ∧
    (∀ k, k ≠ t → (incr (if sz = 'L' then linv else sinv) t).lookup k =
      (if sz = 'L' then linv else sinv).lookup k) := by
  by_cases hsz : sz = 'L'
  · subst hsz
    simp only [if_pos rfl] at hns ⊢
    have hrun := run_bouquet_designs_no_sat regs.1 (incr linv t) hns
    unfold production_facility_step
      match_flower_streams_with_bouquet_design_structures
    simp only [if_pos rfl]
    rw [hrun]
    exact ⟨rfl, rfl, lookup_incr_self linv t,
      fun k hk => lookup_incr_other linv t k hk⟩
  · simp only [if_neg hsz] at hns ⊢
    have hrun := run_bouquet_designs_no_sat regs.2 (incr sinv t) hns
    unfold production_facility_step
      match_flower_streams_with_bouquet_design_structures
    simp only [if_neg hsz]
    rw [hrun]
    exact ⟨rfl, rfl, lookup_incr_self sinv t,
      fun k hk => lookup_incr_other sinv t k hk⟩

/-- C9 witness: size class Small, design `AS2a4` (needs 2 of `a`), first
small flower `a` arriving on empty counters: no design is satisfiable and
the frame conditions hold. -/
theorem c9_no_match_frame_witness :
    (production_facility_step
      (build_registries [("AS2a4".toList)]) ([], []) ('a', 'S')).2 = [] ∧
    (production_facility_step
      (build_registries [("AS2a4".toList)]) ([], []) ('a', 'S')).1 =
      (if 'S' = 'L' then (incr [] 'a', []) else ([], incr [] 'a')) ∧
    (incr (if 'S' = 'L' then [] else []) 'a').lookup 'a' =
      some (((if 'S' = 'L' then ([] : Inventory) else []).lookup 'a').getD 0 + 1) ∧
    (∀ k, k ≠ 'a' → (incr (if 'S' = 'L' then [] else []) 'a').lookup k =
      (if 'S' = 'L' then ([] : Inventory) else []).lookup k) :=
  c9_no_match_frame (build_registries [("AS2a4".toList)]) [] [] 'a' 'S'
    (by decide)

/-- C10: a registered design whose required-flower map is empty is emitted
on every flower arrival of its size class — never only on the first, since
nothing removes it from the registry — and its named deduction leaves the
arrival's counter unchanged. -/
theorem c10_empty_design_always_emits (reg : Registry) (inv : Inventory)
    (t k : Char) (r : Recipe) (hmem : (k, r) ∈ reg) (hflowers : r.flowers = []) :
    r.bouquet ∈
      (match_flower_streams_with_bouquet_design_structures t reg inv).2 ∧
    named_deduction (incr inv t) r = incr inv t := by
  constructor
  · exact bouquet_mem_run reg (incr inv t) k r hmem
      (satisfiable_of_empty_flowers hflowers)
  · unfold named_deduction
    rw [hflowers]
    simp [List.lookup]

/-- C10 witness: the empty-requirement design compiled from `AS15`, sitting
in the Small registry, is emitted on an arrival of the unrelated flower
type `x`, with the named deduction changing nothing. -/
theorem c10_empty_design_always_emits_witness :
    ("AS".toList) ∈
      (match_flower_streams_with_bouquet_design_structures 'x'
        (build_registries [("AS15".toList)]).2 []).2 ∧
    named_deduction (incr [] 'x') (⟨"15".toList, [], "AS".toList⟩ : Recipe) =
      incr [] 'x' :=
  c10_empty_design_always_emits (build_registries [("AS15".toList)]).2 [] 'x'
    'A' ⟨"15".toList, [], "AS".toList⟩ (by decide) (by decide)

/-- C2 (amended): classification tests `'L' in bouquet_design`, so a
well-shaped design (only digits and lowercase letters from position 2 on) is
compiled into the Large registry iff its identifier or its size-class letter
is 'L', and into the Small registry otherwise; a description whose
position-1 letter is 'S' reaches the Small registry only when its identifier
is not 'L'. -/
theorem c2_size_class_dispatch (d : List Char) (lreg sreg : Registry)
    (k : Char) (r : Recipe)
    (hrest : ∀ c ∈ d.drop 2, c.isDigit = true ∨ c.isLower = true)
    (hc : create_bouquet_designs_matching_structure d = some (k, r)) :
    (d.get? 0 = some 'L' ∨ d.get? 1 = some 'L' →
      add_bouquet_design (lreg, sreg) d = (dictInsert lreg k r, sreg)) ∧
    (d.get? 0 ≠ some 'L' ∧ d.get? 1 ≠ some 'L' →
      add_bouquet_design (lreg, sreg) d = (lreg, dictInsert sreg k r)) := by
  cases d with
  | nil => simp [create_bouquet_designs_matching_structure] at hc
  | cons c0 d1 =>
    cases d1 with
    | nil =>
      simp [create_bouquet_designs_matching_structure, digitRuns_nil] at hc
    | cons c1 rest =>
      have hLrest : 'L' ∉ rest := by
        intro hmem
        have hd2 : (c0 :: c1 :: rest).drop 2 = rest := rfl
        have := hrest 'L' (by rw [hd2]; exact hmem)
        simp at this
      have hcontains : (c0 :: c1 :: rest).contains 'L' = true ↔
          c0 = 'L' ∨ c1 = 'L' := by
        rw [List.elem_iff]
        constructor
        · intro hm
          rcases List.mem_cons.mp hm with h0 | hm1
          · exact Or.inl h0.symm
          · rcases List.mem_cons.mp hm1 with h1 | hm2
            · exact Or.inr h1.symm
            · exact absurd hm2 hLrest
        · rintro (h0 | h1)
          · rw [h0]
            exact List.mem_cons_self _ _
          · rw [h1]
            exact List.mem_cons_of_mem _ (List.mem_cons_self _ _)
      constructor
      · intro hpos
        have hL : (c0 :: c1 :: rest).contains 'L' = true := by
          rw [hcontains]
          rcases hpos with h0 | h1
          · left
            simpa [List.get?] using h0
          · right
            simpa [List.get?] using h1
        unfold add_bouquet_design
        rw [hc, hL]
        simp
      · rintro ⟨h0, h1⟩
        have hL : (c0 :: c1 :: rest).contains 'L' = false := by
          rw [Bool.eq_false_iff]
          intro hcon
          rcases hcontains.mp hcon with he | he
          · exact h0 (by simp [List.get?, he])
          · exact h1 (by simp [List.get?, he])
        unfold add_bouquet_design
        rw [hc, hL]
        simp

/-- C2 witness: the design `CS3a7` (no 'L' anywhere) is compiled into the
Small registry. -/
theorem c2_size_class_dispatch_witness :
    (("CS3a7".toList).get? 0 = some 'L' ∨ ("CS3a7".toList).get? 1 = some 'L' →
      add_bouquet_design ([], []) ("CS3a7".toList) =
        (dictInsert [] 'C' ⟨"7".toList, [('a', "3".toList)], "CS3a".toList⟩, [])) ∧
    (("CS3a7".toList).get? 0 ≠ some 'L' ∧ ("CS3a7".toList).get? 1 ≠ some 'L' →
      add_bouquet_design ([], []) ("CS3a7".toList) =
        ([], dictInsert [] 'C' ⟨"7".toList, [('a', "3".toList)], "CS3a".toList⟩)) :=
  c2_size_class_dispatch ("CS3a7".toList) [] [] 'C'
    ⟨"7".toList, [('a', "3".toList)], "CS3a".toList⟩ (by decide) (by decide)

/-- C2 counterexample: the design `LS15` carries the size-class letter 'S'
at position 1, yet — because its identifier is 'L' — it is compiled into the
Large registry and the Small registry stays empty, refuting the claim that
the position-1 letter alone decides the registry. -/
theorem c2_counterexample_identifier_l :
    ("LS15".toList).get? 1 = some 'S' ∧
    (build_registries [("LS15".toList)]).2 = [] ∧
    (build_registries [("LS15".toList)]).1 ≠ [] := by
  decide

/-! ### Facts about digit runs and occurrence removal, for the display code -/

lemma digitRunsAux_sound : ∀ (fuel : Nat) (s run : List Char),
    run ∈ digitRunsAux fuel s → run ≠ [] ∧ ∀ c ∈ run, c.isDigit = true := by
  intro fuel
  induction fuel with
  | zero =>
    intro s run h
    simp [digitRunsAux] at h
  | succ n ih =>
    intro s run h
    cases s with
    | nil => simp [digitRunsAux] at h
    | cons c rest =>
      simp only [digitRunsAux] at h
      by_cases hc : c.isDigit
      · simp only [hc, if_pos] at h
        rcases List.mem_cons.mp h with he | hm
        · subst he
          refine ⟨by simp, ?_⟩
          intro x hx
          rcases List.mem_cons.mp hx with he2 | hx2
          · rw [he2]
            exact hc
          · exact List.mem_takeWhile_imp hx2
        · exact ih _ _ hm
      · simp only [hc, Bool.false_eq_true, if_false] at h
        exact ih _ _ h

lemma digitRuns_sound (s run : List Char) (h : run ∈ digitRuns s) :
    run ≠ [] ∧ ∀ c ∈ run, c.isDigit = true :=
  digitRunsAux_sound s.length s run h

lemma isPrefixOf_cons_eq_false {p0 : Char} {pt : List Char} {c : Char}
    (hne : p0 ≠ c) (s : List Char) :
    (p0 :: pt).isPrefixOf (c :: s) = false := by
  simp [List.isPrefixOf, beq_eq_false_iff_ne.mpr hne]

lemma removeOccs_append_of_head_notin (p0 : Char) (pt a b : List Char)
    (ha : ∀ c ∈ a, p0 ≠ c) :
    removeOccs (p0 :: pt) (a ++ b) = a ++ removeOccs (p0 :: pt) b := by
  induction a with
  | nil => simp
  | cons c arest ih =>
    rw [List.cons_append, removeOccs_cons]
    have hpre : (p0 :: pt).isPrefixOf (c :: (arest ++ b)) = false :=
      isPrefixOf_cons_eq_false (ha c (List.mem_cons_self _ _)) _
    rw [if_neg (by simp [hpre])]
    rw [ih (fun x hx => ha x (List.mem_cons_of_mem _ hx))]
    simp

lemma removeFirstOcc_cons (pat : List Char) (c : Char) (rest : List Char) :
    removeFirstOcc pat (c :: rest) =
      if pat ≠ [] ∧ pat.isPrefixOf (c :: rest) then rest.drop (pat.length - 1)
      else c :: removeFirstOcc pat rest := rfl

lemma removeOccs_of_occCount_zero (pat : List Char) : ∀ s : List Char,
    occCount pat s = 0 → removeOccs pat s = s := by
  intro s
  induction s with
  | nil =>
    intro h
    rfl
  | cons c rest ih =>
    intro h
    rw [occCount_cons] at h
    rw [removeOccs_cons]
    by_cases hp : pat ≠ [] ∧ pat.isPrefixOf (c :: rest)
    · rw [if_pos hp] at h
      omega
    · rw [if_neg hp] at h
      rw [if_neg hp, ih h]

lemma removeOccs_eq_removeFirstOcc (pat : List Char) : ∀ s : List Char,
    occCount pat s ≤ 1 → removeOccs pat s = removeFirstOcc pat s := by
  intro s
  induction s with
  | nil =>
    intro h
    rfl
  | cons c rest ih =>
    intro h
    rw [occCount_cons] at h
    rw [removeOccs_cons, removeFirstOcc_cons]
    by_cases hp : pat ≠ [] ∧ pat.isPrefixOf (c :: rest)
    · rw [if_pos hp] at h
      rw [if_pos hp, if_pos hp,
        removeOccs_of_occCount_zero pat _ (by omega)]
    · rw [if_neg hp] at h
      rw [if_neg hp, if_neg hp, ih h]

/-- C6 (amended): the compiled `displayCode` is the whole original
description with *every* left-to-right occurrence of the `totalFlowers`
numeral string removed — not only the first; whenever that numeral occurs at
most once in the remainder (and positions 0–1 hold no digits, as for
well-shaped designs), this coincides with the spec's first-occurrence
reading, the identifier and size-class letters staying as prefix. -/
theorem c6_display_code (d : List Char) (k : Char) (r : Recipe)
    (hc : create_bouquet_designs_matching_structure d = some (k, r)) :
    r.bouquet = removeOccs r.total_number_of_flowers d ∧
    ((∀ c ∈ d.take 2, c.isDigit = false) →
      occCount r.total_number_of_flowers (d.drop 2) ≤ 1 →
      r.bouquet = d.take 2 ++ removeFirstOcc r.total_number_of_flowers (d.drop 2)) := by
  cases d with
  | nil => simp [create_bouquet_designs_matching_structure] at hc
  | cons c0 d1 =>
    simp only [create_bouquet_designs_matching_structure] at hc
    cases hlast : (digitRuns ((c0 :: d1).drop 2)).getLast? with
    | none =>
      rw [hlast] at hc
      simp at hc
    | some total =>
      rw [hlast] at hc
      simp only [Option.some.injEq, Prod.mk.injEq] at hc
      obtain ⟨hk, hr⟩ := hc
      subst hr
      refine ⟨rfl, ?_⟩
      intro htake hocc
      have hmem : total ∈ digitRuns ((c0 :: d1).drop 2) :=
        List.mem_of_mem_getLast? hlast
      obtain ⟨hne, hdig⟩ := digitRuns_sound _ _ hmem
      cases total with
      | nil => exact absurd rfl hne
      | cons p0 pt =>
        have hp0 : p0.isDigit = true := hdig p0 (List.mem_cons_self _ _)
        have ha : ∀ c ∈ (c0 :: d1).take 2, p0 ≠ c := by
          intro c hcmem heq
          have h1 := htake c hcmem
          rw [← heq] at h1
          rw [hp0] at h1
          simp at h1
        show removeOccs (p0 :: pt) (c0 :: d1) =
          (c0 :: d1).take 2 ++ removeFirstOcc (p0 :: pt) ((c0 :: d1).drop 2)
        calc removeOccs (p0 :: pt) (c0 :: d1)
            = removeOccs (p0 :: pt) ((c0 :: d1).take 2 ++ (c0 :: d1).drop 2) := by
              rw [List.take_append_drop]
          _ = (c0 :: d1).take 2 ++ removeOccs (p0 :: pt) ((c0 :: d1).drop 2) :=
              removeOccs_append_of_head_notin p0 pt _ _ ha
          _ = (c0 :: d1).take 2 ++ removeFirstOcc (p0 :: pt) ((c0 :: d1).drop 2) := by
              rw [removeOccs_eq_removeFirstOcc (p0 :: pt) _ hocc]

/-! ### Parsing facts for well-shaped designs -/

lemma takeWhile_append_of_all (p : Char → Bool) (q s : List Char)
    (hq : ∀ c ∈ q, p c = true) : (q ++ s).takeWhile p = q ++ s.takeWhile p := by
  induction q with
  | nil => simp
  | cons c qt ih =>
    have hc : p c = true := hq c (List.mem_cons_self _ _)
    simp [List.takeWhile_cons, hc,
      ih (fun x hx => hq x (List.mem_cons_of_mem _ hx))]

lemma dropWhile_append_of_all (p : Char → Bool) (q s : List Char)
    (hq : ∀ c ∈ q, p c = true) : (q ++ s).dropWhile p = s.dropWhile p := by
  induction q with
  | nil => simp
  | cons c qt ih =>
    have hc : p c = true := hq c (List.mem_cons_self _ _)
    simp [List.dropWhile_cons, hc,
      ih (fun x hx => hq x (List.mem_cons_of_mem _ hx))]

lemma takeWhile_eq_nil_of_head (p : Char → Bool) (s : List Char)
    (hs : ∀ c, s.head? = some c → p c = false) : s.takeWhile p = [] := by
  cases s with
  | nil => rfl
  | cons c t => simp [List.takeWhile_cons, hs c rfl]

lemma dropWhile_eq_self_of_head (p : Char → Bool) (s : List Char)
    (hs : ∀ c, s.head? = some c → p c = false) : s.dropWhile p = s := by
  cases s with
  | nil => rfl
  | cons c t => simp [List.dropWhile_cons, hs c rfl]

lemma digitRuns_run (q s : List Char) (hq0 : q ≠ [])
    (hq : ∀ c ∈ q, c.isDigit = true)
    (hs : ∀ c, s.head? = some c → c.isDigit = false) :
    digitRuns (q ++ s) = q :: digitRuns s := by
  cases q with
  | nil => exact absurd rfl hq0
  | cons c qt =>
    have hqt : ∀ x ∈ qt, Char.isDigit x = true :=
      fun x hx => hq x (List.mem_cons_of_mem _ hx)
    rw [List.cons_append, digitRuns_cons, if_pos (hq c (List.mem_cons_self _ _))]
    rw [takeWhile_append_of_all Char.isDigit qt s hqt,
      takeWhile_eq_nil_of_head Char.isDigit s hs,
      dropWhile_append_of_all Char.isDigit qt s hqt,
      dropWhile_eq_self_of_head Char.isDigit s hs]
    simp

lemma filter_isLower_of_pairs (ps : List (List Char × Char)) (qt : List Char)
    (hps : ∀ p ∈ ps, (∀ c ∈ p.1, c.isDigit = true) ∧ p.2.isLower = true)
    (hqt : ∀ c ∈ qt, c.isDigit = true) :
    ((ps.map (fun p => p.1 ++ [p.2])).flatten ++ qt).filter Char.isLower =
      ps.map Prod.snd := by
  induction ps with
  | nil =>
    simp only [List.map_nil, List.flatten_nil, List.nil_append]
    exact List.filter_eq_nil_iff.mpr (fun c hc => by
      rw [isLower_of_isDigit_eq_false (hqt c hc)]
      simp)
  | cons p pt ih =>
    obtain ⟨hpd, hpl⟩ := hps p (List.mem_cons_self _ _)
    have ih2 := ih (fun x hx => hps x (List.mem_cons_of_mem _ hx))
    simp only [List.map_cons, List.flatten_cons, List.append_assoc]
    rw [List.filter_append, List.filter_append]
    rw [List.filter_eq_nil_iff.mpr (fun c hc => by
      rw [isLower_of_isDigit_eq_false (hpd c hc)]
      simp)]
    rw [ih2]
    simp [List.filter_cons, hpl]

lemma digitRuns_pairs (ps : List (List Char × Char)) (qt : List Char)
    (hps : ∀ p ∈ ps, p.1 ≠ [] ∧ (∀ c ∈ p.1, c.isDigit = true) ∧ p.2.isLower = true)
    (hqt0 : qt ≠ []) (hqt : ∀ c ∈ qt, c.isDigit = true) :
    digitRuns ((ps.map (fun p => p.1 ++ [p.2])).flatten ++ qt) =
      ps.map Prod.fst ++ [qt] := by
  induction ps with
  | nil =>
    simp only [List.map_nil, List.flatten_nil, List.nil_append]
    have h := digitRuns_run qt [] hqt0 hqt (by intro c hc; simp at hc)
    simpa using h
  | cons p pt ih =>
    obtain ⟨hp0, hpd, hpl⟩ := hps p (List.mem_cons_self _ _)
    simp only [List.map_cons, List.flatten_cons, List.append_assoc]
    rw [digitRuns_run p.1 ([p.2] ++ ((pt.map (fun x => x.1 ++ [x.2])).flatten ++ qt))
      hp0 hpd (by
        intro c hc
        simp only [List.singleton_append, List.head?_cons, Option.some.injEq] at hc
        rw [← hc]
        exact isDigit_of_isLower_eq_false hpl)]
    rw [List.singleton_append, digitRuns_cons,
      if_neg (by rw [isDigit_of_isLower_eq_false hpl]; simp)]
    rw [ih (fun x hx => hps x (List.mem_cons_of_mem _ hx))]
    simp

lemma map_fst_zip_sublist {β : Type} : ∀ (ks : List Char) (vs : List β),
    ((ks.zip vs).map Prod.fst).Sublist ks := by
  intro ks
  induction ks with
  | nil =>
    intro vs
    simp
  | cons k kt ih =>
    intro vs
    cases vs with
    | nil => simp
    | cons v vt =>
      simp only [List.zip_cons_cons, List.map_cons]
      exact List.Sublist.cons₂ k (ih vt)

lemma foldl_dictInsert_disjoint {β : Type} :
    ∀ (l : List (Char × β)) (acc : List (Char × β)),
    (∀ kv ∈ l, acc.lookup kv.1 = none) → (l.map Prod.fst).Nodup →
    l.foldl (fun m kv => dictInsert m kv.1 kv.2) acc = acc ++ l := by
  intro l
  induction l with
  | nil =>
    intro acc _ _
    simp
  | cons kv rest ih =>
    intro acc hd hn
    simp only [List.map_cons, List.nodup_cons] at hn
    simp only [List.foldl_cons]
    have h1 : dictInsert acc kv.1 kv.2 = acc ++ [kv] := by
      unfold dictInsert
      rw [hd kv (List.mem_cons_self _ _)]
      simp
    rw [h1, ih (acc ++ [kv]) ?_ hn.2]
    · simp
    · intro kv2 hm
      have hne : kv2.1 ≠ kv.1 := by
        intro he
        exact hn.1 (List.mem_map.mpr ⟨kv2, hm, he⟩)
      rw [List.lookup_append, hd kv2 (List.mem_cons_of_mem _ hm)]
      obtain ⟨k0, v0⟩ := kv
      simp only [Option.none_or]
      simp [List.lookup_cons, beq_eq_false_iff_ne.mpr hne]

lemma dictZip_eq_zip {β : Type} (ks : List Char) (vs : List β) (hn : ks.Nodup) :
    dictZip ks vs = ks.zip vs := by
  unfold dictZip
  rw [foldl_dictInsert_disjoint (ks.zip vs) [] (by simp) 
    (List.Nodup.sublist (map_fst_zip_sublist ks vs) hn)]
  simp

lemma create_cons (c0 : Char) (d1 : List Char) :
    create_bouquet_designs_matching_structure (c0 :: d1) =
      match (digitRuns ((c0 :: d1).drop 2)).getLast? with
      | none => none
      | some total =>
        some (c0, { total_number_of_flowers := total
                    flowers := dictZip (((c0 :: d1).drop 2).filter Char.isLower)
                      (digitRuns ((c0 :: d1).drop 2)).dropLast
                    bouquet := removeOccs total (c0 :: d1) }) := rfl

/-- C7: compiling a well-shaped design — identifier, size-class letter, then
(quantity, flower-type) pairs and a trailing total quantity — extracts the
quantity runs and letters in order, takes the last quantity as the total,
and pairs the remaining quantities positionally with the letters to build
the required-flower map. -/
theorem c7_compiler_positional_pairing (c0 c1 : Char)
    (ps : List (List Char × Char)) (qt : List Char)
    (hps : ∀ p ∈ ps, p.1 ≠ [] ∧ (∀ c ∈ p.1, c.isDigit = true) ∧ p.2.isLower = true)
    (hqt0 : qt ≠ []) (hqt : ∀ c ∈ qt, c.isDigit = true)
    (hnd : (ps.map Prod.snd).Nodup) :
    create_bouquet_designs_matching_structure (descOfPairs c0 c1 ps qt) =
      some (c0, { total_number_of_flowers := qt
                  flowers := ps.map (fun p => (p.2, p.1))
                  bouquet := removeOccs qt (descOfPairs c0 c1 ps qt) }) := by
  have hd : descOfPairs c0 c1 ps qt =
      c0 :: c1 :: ((ps.map (fun p => p.1 ++ [p.2])).flatten ++ qt) := rfl
  rw [hd, create_cons]
  have hdrop : (c0 :: c1 :: ((ps.map (fun p => p.1 ++ [p.2])).flatten ++ qt)).drop 2 =
      (ps.map (fun p => p.1 ++ [p.2])).flatten ++ qt := rfl
  rw [hdrop, digitRuns_pairs ps qt hps hqt0 hqt, List.getLast?_concat,
    List.dropLast_concat,
    filter_isLower_of_pairs ps qt (fun p hp => ⟨(hps p hp).2.1, (hps p hp).2.2⟩) hqt,
    dictZip_eq_zip (ps.map Prod.snd) (ps.map Prod.fst) hnd, List.zip_map']

/-- C7 witness: the claim's own example — `AS10a10b25` compiles to required
counts `{a: 10, b: 10}`, total `25`, display code `AS10a10b`. -/
theorem c7_compiler_positional_pairing_witness :
    create_bouquet_designs_matching_structure ("AS10a10b25".toList) =
      some ('A', { total_number_of_flowers := "25".toList
                   flowers := [('a', "10".toList), ('b', "10".toList)]
                   bouquet := "AS10a10b".toList }) := by
  have h := c7_compiler_positional_pairing 'A' 'S'
    [("10".toList, 'a'), ("10".toList, 'b')] ("25".toList)
    (by decide) (by decide) (by decide) (by decide)
  refine Eq.trans ?_ (Eq.trans h ?_)
  · decide
  · decide

/-- C6 witness: for the design `BS4b9`, whose total numeral `9` occurs once
in the remainder, the display code equals both the remove-all computation
and the spec's first-occurrence removal prefixed by `BS`. -/
theorem c6_display_code_witness :
    ((⟨"9".toList, [('b', "4".toList)], "BS4b".toList⟩ : Recipe).bouquet =
      removeOccs ("9".toList) ("BS4b9".toList)) ∧
    ((∀ c ∈ ("BS4b9".toList).take 2, c.isDigit = false) →
      occCount ("9".toList) (("BS4b9".toList).drop 2) ≤ 1 →
      (⟨"9".toList, [('b', "4".toList)], "BS4b".toList⟩ : Recipe).bouquet =
        ("BS4b9".toList).take 2 ++
          removeFirstOcc ("9".toList) (("BS4b9".toList).drop 2)) :=
  c6_display_code ("BS4b9".toList) 'B'
    ⟨"9".toList, [('b', "4".toList)], "BS4b".toList⟩ (by decide)

/-- C6 counterexample: in the design `AS2a2` the total numeral `2` also
occurs as the quantity of `a`; the code removes *all* occurrences, giving
display code `ASa`, while the claim's first-occurrence removal would give
`ASa2` — so the claim is false of the code. -/
theorem c6_counterexample_repeated_numeral :
    create_bouquet_designs_matching_structure ("AS2a2".toList) =
      some ('A', ⟨"2".toList, [('a', "2".toList)], "ASa".toList⟩) ∧
    ("ASa".toList) ≠
      ("AS2a2".toList).take 2 ++
        removeFirstOcc ("2".toList) (("AS2a2".toList).drop 2) := by
  decide
